import Mathlib

/-!
Verification of the component-library catalog subsystem
(`desktop-frontend/src/component_library.py`).

Python strings are embedded as lists of characters (`Str`); the Python
string operations used by the code (`str.strip`, `str.lower`, the `in`
substring test, and the code-point lexicographic order used by `sorted`)
are given executable, structurally recursive definitions below.
-/

set_option autoImplicit false

namespace CompLib

/-- A Python string, embedded as its sequence of characters. -/
abbrev Str := List Char

/-- Membership of Python `string.whitespace` (the characters removed by
`str.strip()` for ASCII input): space, tab, newline, carriage return,
vertical tab, form feed. -/
def pyIsSpace (c : Char) : Bool :=
  c == ' ' || c == '\t' || c == '\n' || c == '\r' || c == '\x0b' || c == '\x0c'

/-- Python `s.strip()`: remove leading and trailing whitespace. -/
def pyStrip (s : Str) : Str :=
  ((s.dropWhile pyIsSpace).reverse.dropWhile pyIsSpace).reverse

/-- Python `s.lower()`, for the ASCII range exercised by the code. -/
def pyLower (s : Str) : Str := s.map Char.toLower

/-- Python string comparison `s < t`: lexicographic by code point. -/
def pyStrLt : Str → Str → Bool
  | [], [] => false
  | [], _ :: _ => true
  | _ :: _, [] => false
  | a :: s, b :: t => if a < b then true else if b < a then false else pyStrLt s t

/-- The non-strict order `s <= t` corresponding to `pyStrLt`; this is the
order in which Python `sorted` arranges strings. -/
def pyLe (a b : Str) : Prop := pyStrLt b a = false

instance : DecidableRel pyLe := fun a b => inferInstanceAs (Decidable (pyStrLt b a = false))

/-- Python `sub in hay`: substring test. -/
def pyContains (sub : Str) : Str → Bool
  | [] => sub.isEmpty
  | c :: rest => sub.isPrefixOf (c :: rest) || pyContains sub rest

/-- Occurring as a contiguous substring, stated abstractly. -/
def SubstrOf (sub hay : Str) : Prop :=
  ∃ pre post : Str, hay = pre ++ sub ++ post

theorem pyStrLt_asymm (s : Str) : ∀ t : Str, pyStrLt s t = true → pyStrLt t s = false := by
  induction s with
  | nil =>
    intro t h
    cases t with
    | nil => simp [pyStrLt] at h
    | cons b t => simp [pyStrLt]
  | cons a s ih =>
    intro t h
    cases t with
    | nil => simp [pyStrLt] at h
    | cons b t =>
      simp only [pyStrLt] at h ⊢
      by_cases hab : a < b
      · have hba : ¬ b < a := lt_asymm hab
        simp [hab, hba]
      · by_cases hba : b < a
        · simp [hab, hba] at h
        · simp [hab, hba] at h ⊢
          exact ih t h

theorem pyStrLt_or_of_lt (c : Str) :
    ∀ a b : Str, pyStrLt c a = true → pyStrLt c b = true ∨ pyStrLt b a = true := by
  induction c with
  | nil =>
    intro a b h
    cases a with
    | nil => simp [pyStrLt] at h
    | cons a₀ as =>
      cases b with
      | nil => right; simp [pyStrLt]
      | cons b₀ bs => left; simp [pyStrLt]
  | cons c₀ cs ih =>
    intro a b h
    cases a with
    | nil => simp [pyStrLt] at h
    | cons a₀ as =>
      cases b with
      | nil => right; simp [pyStrLt]
      | cons b₀ bs =>
        simp only [pyStrLt] at h ⊢
        by_cases h1 : c₀ < a₀
        · by_cases h2 : b₀ < a₀
          · right; simp [h2]
          · left
            have hcb : c₀ < b₀ := lt_of_lt_of_le h1 (not_lt.mp h2)
            simp [hcb]
        · by_cases h1' : a₀ < c₀
          · simp [h1, h1'] at h
          · have hca : c₀ = a₀ := le_antisymm (not_lt.mp h1') (not_lt.mp h1)
            subst hca
            simp [lt_irrefl] at h
            by_cases h2 : b₀ < c₀
            · right; simp [h2]
            · by_cases h2' : c₀ < b₀
              · left; simp [h2']
              · have hbc : b₀ = c₀ := le_antisymm (not_lt.mp h2') (not_lt.mp h2)
                subst hbc
                rcases ih as bs h with h3 | h3
                · left; simp [lt_irrefl, h3]
                · right; simp [lt_irrefl, h3]

theorem pyStrLt_trichotomy (s : Str) :
    ∀ t : Str, pyStrLt s t = true ∨ s = t ∨ pyStrLt t s = true := by
  induction s with
  | nil =>
    intro t
    cases t with
    | nil => right; left; rfl
    | cons b t => left; simp [pyStrLt]
  | cons a s ih =>
    intro t
    cases t with
    | nil => right; right; simp [pyStrLt]
    | cons b t =>
      rcases lt_trichotomy a b with hab | hab | hab
      · left; simp [pyStrLt, hab]
      · subst hab
        rcases ih t with h | h | h
        · left; simp [pyStrLt, lt_irrefl, h]
        · right; left; rw [h]
        · right; right; simp [pyStrLt, lt_irrefl, h]
      · right; right; simp [pyStrLt, hab]

instance : IsTotal Str pyLe :=
  ⟨fun a b => by
    cases hb : pyStrLt b a with
    | false => exact Or.inl hb
    | true => exact Or.inr (pyStrLt_asymm b a hb)⟩

instance : IsTrans Str pyLe :=
  ⟨fun a b c hab hbc => by
    have hab' : pyStrLt b a = false := hab
    have hbc' : pyStrLt c b = false := hbc
    cases hca : pyStrLt c a with
    | false => exact hca
    | true =>
      rcases pyStrLt_or_of_lt c a b hca with h2 | h2
      · rw [hbc'] at h2; exact absurd h2 (by decide)
      · rw [hab'] at h2; exact absurd h2 (by decide)⟩

theorem pyContains_iff (sub : Str) (hay : Str) : pyContains sub hay = true ↔ SubstrOf sub hay := by
  induction hay with
  | nil =>
    simp only [pyContains, List.isEmpty_iff, SubstrOf]
    constructor
    · rintro rfl; exact ⟨[], [], rfl⟩
    · rintro ⟨pre, post, h⟩
      exact (List.append_eq_nil.mp (List.append_eq_nil.mp h.symm).1).2
  | cons c rest ih =>
    simp only [pyContains, Bool.or_eq_true, List.isPrefixOf_iff_prefix, ih, SubstrOf]
    constructor
    · rintro (⟨post, hpost⟩ | ⟨pre, post, hpp⟩)
      · exact ⟨[], post, by simpa using hpost.symm⟩
      · exact ⟨c :: pre, post, by simp [hpp]⟩
    · rintro ⟨pre, post, hpp⟩
      cases pre with
      | nil => left; exact ⟨post, by simpa using hpp.symm⟩
      | cons p ps =>
        right
        rw [List.cons_append, List.cons_append] at hpp
        injection hpp with h1 h2
        exact ⟨ps, post, h2⟩

/-- A raw record of the backing source, as `csv.DictReader` presents it to
`_load_components`: each of the three named fields may be missing (`none`),
which is how `DictReader` fills fields absent from a row. -/
structure RawRow where
  parent : Option Str
  name : Option Str
  object : Option Str
deriving DecidableEq, Repr

/-- A validated in-memory component record, one element of
`self.component_data`. -/
structure Component where
  parent : Str
  name : Str
  object : Str
deriving DecidableEq, Repr

/-- Python truthiness of an optional string field: `None` and the empty
string are falsy, as in `if row[\x7bparent\x7d] and row[\x7bname\x7d]`. -/
def truthy : Option Str → Bool
  | none => false
  | some s => !s.isEmpty

/-- The payload field: `row[\x7bobject\x7d].strip() if row[\x7bobject\x7d] else \x7b\x7d`. -/
def objectField (o : Option Str) : Str :=
  if truthy o then pyStrip (o.getD []) else []

/-- The record appended for an accepted row in `_load_components`. -/
def mkComponent (row : RawRow) : Component :=
  { parent := pyStrip (row.parent.getD [])
    name := pyStrip (row.name.getD [])
    object := objectField row.object }

/-- The row loop of `_load_components`: a row is appended iff its `parent`
and `name` fields are truthy; the appended record has its fields stripped. -/
def loadRows : List RawRow → List Component
  | [] => []
  | row :: rest =>
    if truthy row.parent && truthy row.name then
      mkComponent row :: loadRows rest
    else
      loadRows rest

/-- The state of the backing record source as `_load_components` can find
it: the file is absent (`os.path.exists` is false), the file exists but
`open` raises (the exception is caught before any row is appended), or the
file is readable and yields a sequence of rows. -/
inductive Source where
  | absent
  | unreadable
  | readable (rows : List RawRow)

/-- Final contents of `self.component_data` after `_load_components`.  An
absent source returns early; an unopenable source ends in the `except`
branch with nothing appended; neither is surfaced to the caller. -/
def loadComponents : Source → List Component
  | .absent => []
  | .unreadable => []
  | .readable rows => loadRows rows

/-- One step of the grouping loop of `_populate_icons`: a Python dict is an
insertion-ordered association list, and `grouped[parent].append(component)`
appends at the end of the group of `component[\x7bparent\x7d]`, creating it if new. -/
def addToGroups : List (Str × List Component) → Component → List (Str × List Component)
  | [], c => [(c.parent, [c])]
  | (k, v) :: rest, c =>
    if k = c.parent then (k, v ++ [c]) :: rest
    else (k, v) :: addToGroups rest c

/-- The `grouped` dict built by `_populate_icons` from `component_data`. -/
def groupComponents (components : List Component) : List (Str × List Component) :=
  components.foldl addToGroups []

/-- Python dict lookup `grouped[key]` (total here; unused keys return `[]`,
and `_populate_icons` only looks up keys that are present). -/
def dictGet : List (Str × List Component) → Str → List Component
  | [], _ => []
  | (k, v) :: rest, key => if k = key then v else dictGet rest key

/-- Ordering of components by the sort key of
`sorted(grouped[parent_name], key=lambda x: x[\x7bname\x7d])`. -/
def nameLe (a b : Component) : Prop := pyLe a.name b.name

instance : DecidableRel nameLe := fun a b => inferInstanceAs (Decidable (pyLe a.name b.name))

instance : IsTotal Component nameLe := ⟨fun a b => IsTotal.total (r := pyLe) a.name b.name⟩

instance : IsTrans Component nameLe :=
  ⟨fun a b c hab hbc => IsTrans.trans (r := pyLe) a.name b.name c.name hab hbc⟩

/-- The category sections rendered by `_populate_icons`: one section per key
of `grouped`, keys in `sorted` order, each section carrying its entries in
`sorted(..., key=lambda x: x[\x7bname\x7d])` order.  `List.insertionSort` stands in
for Python `sorted`: both are stable ascending sorts of their comparison. -/
def catalogSections (components : List Component) : List (Str × List Component) :=
  let grouped := groupComponents components
  (List.insertionSort pyLe (grouped.map Prod.fst)).map
    (fun parentName => (parentName, List.insertionSort nameLe (dictGet grouped parentName)))

/-- All entries of the rendered sections, flattened in display order. -/
def flatEntries (sections : List (Str × List Component)) : List Component :=
  (sections.map Prod.snd).flatten

/-- Path constructed by `_get_icon_path`: `os.path.join("ui", "assets", "png", parent)` joined
with `f"\x7bname\x7d.png"`. -/
def getIconPath (parent name : Str) : Str :=
  "ui/assets/png/".data ++ parent ++ "/".data ++ name ++ ".png".data

/-- The buttons created by `_populate_icons`, in creation order: for each
sorted category, a `ComponentButton` is created for exactly the sorted
entries whose icon path exists on disk (`pathEx` is the `os.path.exists`
oracle). -/
def populateIcons (components : List Component) (pathEx : Str → Bool) : List Component :=
  ((catalogSections components).map
    (fun sec => sec.2.filter (fun c => pathEx (getIconPath sec.1 c.name)))).flatten

/-- The visibility `_filter_icons` computes for one button:
`search_text in component or search_text in category` after lowercasing,
where `component` is the button's name and `category` its parent. -/
def filterMatches (searchText : Str) (c : Component) : Bool :=
  pyContains (pyLower searchText) (pyLower c.name) ||
    pyContains (pyLower searchText) (pyLower c.parent)

/-- Result of `_filter_icons`: every button is paired with the visibility flag that
`setVisible` receives; the button list itself is not changed. -/
def filterIcons (buttons : List Component) (searchText : Str) : List (Component × Bool) :=
  buttons.map (fun b => (b, filterMatches searchText b))

/-- A pointer position, as the integer pair of a `QPoint`. -/
structure QPoint where
  x : Int
  y : Int
deriving DecidableEq, Repr

/-- Manhattan length `QPoint.manhattanLength()` of a point. -/
def manhattanLength (p : QPoint) : Nat :=
  p.x.natAbs + p.y.natAbs

/-- The mutable state a `ComponentButton` keeps for drag detection:
`self.dragStartPosition`, `None` until a left-button press records one. -/
structure ButtonState where
  dragStartPosition : Option QPoint
deriving DecidableEq, Repr

/-- Effect of `ComponentButton.mousePressEvent`: a left-button press records the press
position; any other button leaves the state unchanged. -/
def mousePressEvent (st : ButtonState) (isLeftButton : Bool) (pos : QPoint) : ButtonState :=
  if isLeftButton then { dragStartPosition := some pos } else st

/-- Effect of `ComponentButton.mouseMoveEvent`: returns the payload exported by the
drag started on this move, or `none` when no drag starts.  The three early
returns of the source are the three `none` branches: left button not held,
no recorded press position (only `None` is falsy for a `QPoint`), or
displacement below the 10-unit manhattan-length threshold. -/
def mouseMoveEvent (st : ButtonState) (payload : Str) (leftHeld : Bool) (pos : QPoint) :
    Option Str :=
  if !leftHeld then none
  else
    match st.dragStartPosition with
    | none => none
    | some start =>
      if manhattanLength ⟨pos.x - start.x, pos.y - start.y⟩ < 10 then none
      else some payload

/-- A pointer event delivered to one button: a press of some mouse button,
or a move with the left button held or not. -/
inductive PointerEvent where
  | press (isLeftButton : Bool) (pos : QPoint)
  | move (leftHeld : Bool) (pos : QPoint)
deriving DecidableEq, Repr

/-- Whether an event is a left-button press. -/
def isLeftPress : PointerEvent → Bool
  | .press true _ => true
  | _ => false

/-- One event dispatched to a button: the updated state and the payload of
the drag-started event, if one is produced. -/
def dispatch (payload : Str) (st : ButtonState) : PointerEvent → ButtonState × Option Str
  | .press isLeft pos => (mousePressEvent st isLeft pos, none)
  | .move leftHeld pos => (st, mouseMoveEvent st payload leftHeld pos)

/-- The drag-started payloads emitted over a sequence of pointer events. -/
def runEmits (payload : Str) (st : ButtonState) : List PointerEvent → List Str
  | [] => []
  | e :: rest =>
    ((dispatch payload st e).2.toList) ++ runEmits payload (dispatch payload st e).1 rest

/-- The state of a freshly constructed button: `self.dragStartPosition = None`. -/
def initState : ButtonState := ⟨none⟩

theorem addToGroups_keys (g : List (Str × List Component)) (c : Component) :
    (addToGroups g c).map Prod.fst =
      if c.parent ∈ g.map Prod.fst then g.map Prod.fst
      else g.map Prod.fst ++ [c.parent] := by
  induction g with
  | nil => simp [addToGroups]
  | cons p rest ih =>
    obtain ⟨k, v⟩ := p
    by_cases hk : k = c.parent
    · subst hk
      simp [addToGroups]
    · simp only [addToGroups, if_neg hk, List.map_cons, ih]
      by_cases hm : c.parent ∈ rest.map Prod.fst
      · simp [hm, Ne.symm hk]
      · simp [hm, Ne.symm hk]

theorem foldl_addToGroups_keys_nodup (l : List Component) :
    ∀ g : List (Str × List Component), (g.map Prod.fst).Nodup →
      ((l.foldl addToGroups g).map Prod.fst).Nodup := by
  induction l with
  | nil => intro g hg; simpa using hg
  | cons c l ih =>
    intro g hg
    simp only [List.foldl_cons]
    apply ih
    rw [addToGroups_keys]
    by_cases hm : c.parent ∈ g.map Prod.fst
    · simpa [hm] using hg
    · simp [hm, List.nodup_append, hg]

theorem groupComponents_keys_nodup (l : List Component) :
    ((groupComponents l).map Prod.fst).Nodup :=
  foldl_addToGroups_keys_nodup l [] (by simp)

/-- Every component stored in a group of the dict carries the group's key as
its category. -/
def GroupsKeyed (g : List (Str × List Component)) : Prop :=
  ∀ p ∈ g, ∀ x ∈ p.2, x.parent = p.1

theorem addToGroups_keyed (g : List (Str × List Component)) (c : Component)
    (hg : GroupsKeyed g) : GroupsKeyed (addToGroups g c) := by
  induction g with
  | nil =>
    intro p hp x hx
    simp only [addToGroups, List.mem_singleton] at hp
    subst hp
    simp only [List.mem_singleton] at hx
    subst hx
    rfl
  | cons q rest ih =>
    obtain ⟨k, v⟩ := q
    by_cases hk : k = c.parent
    · intro p hp x hx
      have hrw : addToGroups ((k, v) :: rest) c = (k, v ++ [c]) :: rest := by
        simp [addToGroups, hk]
      rw [hrw] at hp
      rcases List.mem_cons.mp hp with rfl | hp
      · rcases List.mem_append.mp hx with hxv | hxc
        · exact hg (k, v) (List.mem_cons_self _ _) x hxv
        · simp only [List.mem_singleton] at hxc
          subst hxc
          exact hk.symm
      · exact hg p (List.mem_cons_of_mem _ hp) x hx
    · intro p hp x hx
      have hrw : addToGroups ((k, v) :: rest) c = (k, v) :: addToGroups rest c := by
        simp [addToGroups, hk]
      rw [hrw] at hp
      rcases List.mem_cons.mp hp with rfl | hp
      · exact hg (k, v) (List.mem_cons_self _ _) x hx
      · exact ih (fun p' hp' => hg p' (List.mem_cons_of_mem _ hp')) p hp x hx

theorem foldl_addToGroups_keyed (l : List Component) :
    ∀ g : List (Str × List Component), GroupsKeyed g →
      GroupsKeyed (l.foldl addToGroups g) := by
  induction l with
  | nil => intro g hg; simpa using hg
  | cons c l ih =>
    intro g hg
    simp only [List.foldl_cons]
    exact ih (addToGroups g c) (addToGroups_keyed g c hg)

theorem groupComponents_keyed (l : List Component) : GroupsKeyed (groupComponents l) :=
  foldl_addToGroups_keyed l [] (by intro p hp; simp at hp)

theorem addToGroups_flatten (g : List (Str × List Component)) (c : Component) :
    (((addToGroups g c).map Prod.snd).flatten).Perm
      ((g.map Prod.snd).flatten ++ [c]) := by
  induction g with
  | nil => simp [addToGroups]
  | cons p rest ih =>
    obtain ⟨k, v⟩ := p
    by_cases hk : k = c.parent
    · simp only [addToGroups, if_pos hk, List.map_cons, List.flatten_cons]
      rw [List.append_assoc, List.append_assoc]
      exact List.Perm.append_left v List.perm_append_comm
    · simp only [addToGroups, if_neg hk, List.map_cons, List.flatten_cons]
      rw [List.append_assoc]
      exact List.Perm.append_left v ih

theorem foldl_addToGroups_flatten (l : List Component) :
    ∀ g : List (Str × List Component),
      (((l.foldl addToGroups g).map Prod.snd).flatten).Perm
        ((g.map Prod.snd).flatten ++ l) := by
  induction l with
  | nil => intro g; simp
  | cons c l ih =>
    intro g
    simp only [List.foldl_cons]
    refine (ih (addToGroups g c)).trans ?_
    refine (List.Perm.append_right l (addToGroups_flatten g c)).trans ?_
    rw [List.append_assoc]
    exact List.Perm.refl _

theorem groupComponents_flatten (l : List Component) :
    (((groupComponents l).map Prod.snd).flatten).Perm l := by
  simpa using foldl_addToGroups_flatten l []

theorem dictGet_of_nodup (g : List (Str × List Component))
    (hg : (g.map Prod.fst).Nodup) : ∀ p ∈ g, dictGet g p.1 = p.2 := by
  induction g with
  | nil => intro p hp; simp at hp
  | cons q rest ih =>
    obtain ⟨k, v⟩ := q
    intro p hp
    rcases List.mem_cons.mp hp with rfl | hp
    · simp [dictGet]
    · have hknot : k ∉ rest.map Prod.fst := (List.nodup_cons.mp hg).1
      have hk : k ≠ p.1 := by
        intro hkp
        exact hknot (hkp ▸ List.mem_map_of_mem Prod.fst hp)
      simp only [dictGet, if_neg hk]
      exact ih (List.nodup_cons.mp hg).2 p hp

theorem dictGet_keyed (g : List (Str × List Component)) (hg : GroupsKeyed g) (k : Str) :
    ∀ x ∈ dictGet g k, x.parent = k := by
  induction g with
  | nil => intro x hx; simp [dictGet] at hx
  | cons q rest ih =>
    obtain ⟨k', v⟩ := q
    by_cases hk : k' = k
    · subst hk
      intro x hx
      simp only [dictGet, if_pos rfl] at hx
      exact hg (k', v) (by simp) x hx
    · intro x hx
      simp only [dictGet, if_neg hk] at hx
      exact ih (fun p hp => hg p (List.mem_cons_of_mem _ hp)) x hx

theorem flatten_map_perm {α β : Type} (g : List α) (f h : α → List β)
    (hfh : ∀ a ∈ g, (f a).Perm (h a)) :
    ((g.map f).flatten).Perm ((g.map h).flatten) := by
  induction g with
  | nil => simp
  | cons a g ih =>
    simp only [List.map_cons, List.flatten_cons]
    exact (hfh a (by simp)).append (ih (fun b hb => hfh b (List.mem_cons_of_mem _ hb)))

theorem flatEntries_catalogSections (l : List Component) :
    flatEntries (catalogSections l) =
      ((List.insertionSort pyLe ((groupComponents l).map Prod.fst)).map
        (fun k => List.insertionSort nameLe (dictGet (groupComponents l) k))).flatten := by
  unfold flatEntries catalogSections
  rw [List.map_map]
  rfl

theorem flatEntries_perm (l : List Component) : (flatEntries (catalogSections l)).Perm l := by
  rw [flatEntries_catalogSections]
  refine ((List.perm_insertionSort pyLe _).map _).flatten.trans ?_
  rw [List.map_map]
  have h1 : (groupComponents l).map
      ((fun k => List.insertionSort nameLe (dictGet (groupComponents l) k)) ∘ Prod.fst) =
      (groupComponents l).map (fun p => List.insertionSort nameLe p.2) := by
    apply List.map_congr_left
    intro p hp
    simp only [Function.comp]
    rw [dictGet_of_nodup (groupComponents l) (groupComponents_keys_nodup l) p hp]
  rw [h1]
  refine (flatten_map_perm (groupComponents l) _ Prod.snd
    (fun p _ => List.perm_insertionSort nameLe p.2)).trans ?_
  exact groupComponents_flatten l

theorem catalogSections_keyed (l : List Component) :
    ∀ sec ∈ catalogSections l, ∀ c ∈ sec.2, c.parent = sec.1 := by
  intro sec hsec c hc
  unfold catalogSections at hsec
  obtain ⟨k, _, rfl⟩ := List.mem_map.mp hsec
  have hc' : c ∈ dictGet (groupComponents l) k := by
    have := (List.mem_insertionSort nameLe (l := dictGet (groupComponents l) k)).mp hc
    exact this
  exact dictGet_keyed (groupComponents l) (groupComponents_keyed l) k c hc'

theorem populateIcons_perm (l : List Component) (pathEx : Str → Bool) :
    (populateIcons l pathEx).Perm
      (l.filter (fun c => pathEx (getIconPath c.parent c.name))) := by
  have h1 : populateIcons l pathEx =
      ((catalogSections l).map
        (fun sec => sec.2.filter (fun c => pathEx (getIconPath c.parent c.name)))).flatten := by
    unfold populateIcons
    congr 1
    apply List.map_congr_left
    intro sec hsec
    apply List.filter_congr
    intro c hc
    rw [catalogSections_keyed l sec hsec c hc]
  have h2 : ((catalogSections l).map
      (fun sec => sec.2.filter (fun c => pathEx (getIconPath c.parent c.name)))).flatten =
      (flatEntries (catalogSections l)).filter
        (fun c => pathEx (getIconPath c.parent c.name)) := by
    unfold flatEntries
    rw [List.filter_flatten, List.map_map]
    rfl
  rw [h1, h2]
  exact (flatEntries_perm l).filter _

theorem loadRows_append (a b : List RawRow) :
    loadRows (a ++ b) = loadRows a ++ loadRows b := by
  induction a with
  | nil => rfl
  | cons r a ih =>
    simp only [List.cons_append, loadRows]
    cases h : truthy r.parent && truthy r.name <;> simp [h, ih]

theorem mem_loadRows (rows : List RawRow) (e : Component) (he : e ∈ loadRows rows) :
    ∃ r ∈ rows, (truthy r.parent && truthy r.name) = true ∧ e = mkComponent r := by
  induction rows with
  | nil => simp [loadRows] at he
  | cons row rest ih =>
    rw [loadRows] at he
    cases h : truthy row.parent && truthy row.name with
    | true =>
      rw [h, if_pos rfl] at he
      rcases List.mem_cons.mp he with rfl | he
      · exact ⟨row, List.mem_cons_self _ _, h, rfl⟩
      · obtain ⟨r, hr, hacc, heq⟩ := ih he
        exact ⟨r, List.mem_cons_of_mem _ hr, hacc, heq⟩
    | false =>
      rw [h] at he
      simp only [Bool.false_eq_true, if_false] at he
      obtain ⟨r, hr, hacc, heq⟩ := ih he
      exact ⟨r, List.mem_cons_of_mem _ hr, hacc, heq⟩

theorem objectField_some (o : Str) : objectField (some o) = pyStrip o := by
  cases o with
  | nil => rfl
  | cons c t => rfl

theorem pyContains_nil_left (hay : Str) : pyContains [] hay = true := by
  cases hay with
  | nil => rfl
  | cons c t => rfl

theorem loadRows_cons_of_accepted (r : RawRow) (rest : List RawRow)
    (h : (truthy r.parent && truthy r.name) = true) :
    loadRows (r :: rest) = mkComponent r :: loadRows rest := by
  rw [loadRows, h]
  simp

theorem runEmits_no_left_press (payload : Str) (events : List PointerEvent) :
    (∀ e ∈ events, isLeftPress e = false) → runEmits payload ⟨none⟩ events = [] := by
  induction events with
  | nil => intro _; rfl
  | cons e rest ih =>
    intro h
    cases e with
    | press isLeft pos =>
      cases isLeft with
      | false =>
        simp only [runEmits, dispatch, mousePressEvent, Bool.false_eq_true, if_false,
          Option.toList_none, List.nil_append]
        exact ih (fun e' he' => h e' (List.mem_cons_of_mem _ he'))
      | true =>
        exact absurd (h _ (List.mem_cons_self _ _)) (by simp [isLeftPress])
    | move leftHeld pos =>
      have hmove : mouseMoveEvent ⟨none⟩ payload leftHeld pos = none := by
        cases leftHeld <;> rfl
      simp only [runEmits, dispatch, hmove, Option.toList_none, List.nil_append]
      exact ih (fun e' he' => h e' (List.mem_cons_of_mem _ he'))

/-- Row (parent A, name X, object v1) of the duplicate-identity example. -/
def rowAXv1 : RawRow := ⟨some "A".data, some "X".data, some "v1".data⟩

/-- Row (parent A, name X, object v2) of the duplicate-identity example. -/
def rowAXv2 : RawRow := ⟨some "A".data, some "X".data, some "v2".data⟩

/-- C1, counterexample: the code never deduplicates rows of equal
(category, name) identity.  Loading the rows (A, X, v1) and (A, X, v2)
yields a catalog with two entries of identity (A, X), payloads v1 and v2 in
input order — not exactly one entry with payload v2 as the claim states. -/
theorem lastWriteWins_refuted :
    flatEntries (catalogSections (loadComponents (Source.readable [rowAXv1, rowAXv2]))) =
      [⟨"A".data, "X".data, "v1".data⟩, ⟨"A".data, "X".data, "v2".data⟩] ∧
    (flatEntries (catalogSections
      (loadComponents (Source.readable [rowAXv1, rowAXv2])))).length ≠ 1 := by
  constructor
  · decide
  · decide

/-- C1, amended: if two rows resolve to the same (category, name) identity,
the built catalog keeps one entry per such row (no deduplication at all):
for every identity, the catalog entries of that identity are a permutation
of the loaded rows of that identity; loading (A, X, v1) and (A, X, v2)
yields exactly the two entries with payloads v1 and v2, in input order. -/
theorem duplicate_rows_all_kept :
    (∀ (l : List Component) (cat nm : Str),
      ((flatEntries (catalogSections l)).filter
          (fun c => c.parent == cat && c.name == nm)).Perm
        (l.filter (fun c => c.parent == cat && c.name == nm))) ∧
    flatEntries (catalogSections (loadComponents (Source.readable [rowAXv1, rowAXv2]))) =
      [⟨"A".data, "X".data, "v1".data⟩, ⟨"A".data, "X".data, "v2".data⟩] := by
  constructor
  · intro l cat nm
    exact (flatEntries_perm l).filter _
  · decide

/-- C2: a malformed row (one whose name field is missing) inside a readable
source is skipped by itself: the load of the rows before and after it is
exactly the load without the malformed row, so every subsequent valid row
still loads. -/
theorem malformed_row_skipped (pre suf : List RawRow) (m : RawRow) (hm : m.name = none) :
    loadRows (pre ++ m :: suf) = loadRows pre ++ loadRows suf := by
  rw [loadRows_append]
  congr 1
  rw [loadRows, hm]
  simp [truthy]

/-- C2, witness: a source with a valid row, a row with no name field, and a
further valid row loads the first and third rows. -/
theorem malformed_row_skipped_witness :
    loadRows [⟨some "Inputs".data, some "Button".data, some "w1".data⟩,
        ⟨some "Inputs".data, none, some "w2".data⟩,
        ⟨some "Inputs".data, some "Slider".data, some "w3".data⟩] =
      loadRows [⟨some "Inputs".data, some "Button".data, some "w1".data⟩] ++
        loadRows [⟨some "Inputs".data, some "Slider".data, some "w3".data⟩] :=
  malformed_row_skipped [⟨some "Inputs".data, some "Button".data, some "w1".data⟩]
    [⟨some "Inputs".data, some "Slider".data, some "w3".data⟩]
    ⟨some "Inputs".data, none, some "w2".data⟩ rfl

/-- C3: in the displayed catalog the categories appear in strictly
ascending, case-sensitive lexical order (hence with no duplicate category),
and the entries of every category appear in ascending lexical order of
their names. -/
theorem catalog_display_order (l : List Component) :
    ((catalogSections l).map Prod.fst).Pairwise (fun a b => pyStrLt a b = true) ∧
    ((catalogSections l).map Prod.fst).Nodup ∧
    ∀ sec ∈ catalogSections l, sec.2.Pairwise nameLe := by
  have hkeys : (catalogSections l).map Prod.fst =
      List.insertionSort pyLe ((groupComponents l).map Prod.fst) := by
    unfold catalogSections
    rw [List.map_map]
    exact List.map_id' _
  have hsorted : ((catalogSections l).map Prod.fst).Pairwise pyLe := by
    rw [hkeys]
    exact List.sorted_insertionSort pyLe _
  have hnodup : ((catalogSections l).map Prod.fst).Nodup := by
    rw [hkeys]
    exact ((List.perm_insertionSort pyLe _).nodup_iff).mpr (groupComponents_keys_nodup l)
  refine ⟨?_, hnodup, ?_⟩
  · refine (hsorted.and hnodup).imp ?_
    rintro a b ⟨hle, hne⟩
    rcases pyStrLt_trichotomy a b with h | h | h
    · exact h
    · exact absurd h hne
    · have hle' : pyStrLt b a = false := hle
      rw [hle'] at h
      exact absurd h (by decide)
  · intro sec hsec
    unfold catalogSections at hsec
    obtain ⟨k, _, rfl⟩ := List.mem_map.mp hsec
    exact List.sorted_insertionSort nameLe _

/-- C3, witness: the sections built from two out-of-order rows, applied to
the in-category ordering conjunct at the concrete section of category A. -/
theorem catalog_display_order_witness :
    ((("A".data, [(⟨"A".data, "X".data, "q".data⟩ : Component)]) :
        Str × List Component)).2.Pairwise nameLe :=
  (catalog_display_order
      [⟨"B".data, "Y".data, "p".data⟩, ⟨"A".data, "X".data, "q".data⟩]).2.2
    ("A".data, [⟨"A".data, "X".data, "q".data⟩]) (by decide)

/-- C4: a button is carried with visibility flag true by the filter exactly
when it is among the rendered buttons and the lowercased query occurs as a
substring of its lowercased name or of its lowercased category; the empty
query makes every button visible, and the queries BTN and btn compute the
same visibility for every entry. -/
theorem filter_visibility_rule (buttons : List Component) (q : Str) (c : Component) :
    ((c, true) ∈ filterIcons buttons q ↔
      c ∈ buttons ∧
        (SubstrOf (pyLower q) (pyLower c.name) ∨ SubstrOf (pyLower q) (pyLower c.parent))) ∧
    ((c, true) ∈ filterIcons buttons [] ↔ c ∈ buttons) ∧
    filterMatches "BTN".data c = filterMatches "btn".data c := by
  have hmem : ∀ q' : Str, ((c, true) ∈ filterIcons buttons q' ↔
      c ∈ buttons ∧ filterMatches q' c = true) := by
    intro q'
    unfold filterIcons
    rw [List.mem_map]
    constructor
    · rintro ⟨b, hb, heq⟩
      have hbc : b = c := congrArg Prod.fst heq
      subst hbc
      exact ⟨hb, congrArg Prod.snd heq⟩
    · rintro ⟨hb, hf⟩
      exact ⟨c, hb, by rw [hf]⟩
  refine ⟨?_, ?_, ?_⟩
  · rw [hmem q]
    constructor
    · rintro ⟨hb, hf⟩
      refine ⟨hb, ?_⟩
      unfold filterMatches at hf
      rcases (Bool.or_eq_true _ _).mp hf with h | h
      · exact Or.inl ((pyContains_iff _ _).mp h)
      · exact Or.inr ((pyContains_iff _ _).mp h)
    · rintro ⟨hb, h | h⟩ <;> refine ⟨hb, ?_⟩ <;> unfold filterMatches
      · rw [(pyContains_iff _ _).mpr h]
        simp
      · rw [(pyContains_iff _ _).mpr h]
        simp
  · rw [hmem []]
    simp [filterMatches, pyLower, pyContains_nil_left]
  · unfold filterMatches
    rw [show pyLower "BTN".data = pyLower "btn".data from by decide]

/-- C5, counterexample: the row (A, " ", v), whose name field is whitespace
only, passes the rejection check and is stored with its name stripped to
the empty string, so the built catalog does contain an entry with an empty
name. -/
theorem whitespace_name_becomes_empty_entry :
    flatEntries (catalogSections (loadComponents (Source.readable
      [⟨some "A".data, some " ".data, some "v".data⟩]))) =
      [⟨"A".data, [], "v".data⟩] ∧
    ((flatEntries (catalogSections (loadComponents (Source.readable
      [⟨some "A".data, some " ".data, some "v".data⟩])))).any
        (fun e => e.name.isEmpty)) = true := by
  constructor
  · decide
  · decide

/-- C5, amended: a row is silently skipped when its category or name field
is missing or empty, with the check made before whitespace-stripping; a row
whose payload field is missing is kept with payload defaulting to the empty
string; and every catalog entry comes from a row whose raw category and
name were present and non-empty, its stored fields being the stripped raw
fields — so an entry with an empty stripped name or category can appear
exactly when the raw field was whitespace-only. -/
theorem row_rejection_policy :
    (∀ (row : RawRow) (rest : List RawRow),
      (row.parent = none ∨ row.parent = some [] ∨ row.name = none ∨ row.name = some []) →
        loadRows (row :: rest) = loadRows rest) ∧
    (∀ (row : RawRow) (rest : List RawRow),
      truthy row.parent = true → truthy row.name = true → row.object = none →
        loadRows (row :: rest) =
          { parent := pyStrip (row.parent.getD []), name := pyStrip (row.name.getD []),
            object := ([] : Str) } :: loadRows rest) ∧
    (∀ rows : List RawRow, ∀ e ∈ flatEntries (catalogSections (loadRows rows)),
      ∃ r ∈ rows, truthy r.parent = true ∧ truthy r.name = true ∧
        e.parent = pyStrip (r.parent.getD []) ∧ e.name = pyStrip (r.name.getD []) ∧
        e.object = objectField r.object) := by
  refine ⟨?_, ?_, ?_⟩
  · intro row rest h
    rw [loadRows]
    have hacc : (truthy row.parent && truthy row.name) = false := by
      rcases h with h | h | h | h <;> rw [h] <;> simp [truthy]
    rw [hacc]
    simp
  · intro row rest hp hn ho
    rw [loadRows_cons_of_accepted row rest (by rw [hp, hn]; rfl)]
    unfold mkComponent
    rw [ho]
    rfl
  · intro rows e he
    have he' : e ∈ loadRows rows := (flatEntries_perm (loadRows rows)).mem_iff.mp he
    obtain ⟨r, hr, hacc, rfl⟩ := mem_loadRows rows e he'
    exact ⟨r, hr, ((Bool.and_eq_true _ _).mp hacc).1, ((Bool.and_eq_true _ _).mp hacc).2,
      rfl, rfl, rfl⟩

/-- C5, witness: a row with a missing name is dropped, and a row with a
missing payload is kept with an empty payload. -/
theorem row_rejection_policy_witness :
    loadRows [⟨some "A".data, none, some "v".data⟩] = loadRows [] ∧
    loadRows [⟨some "A".data, some "B".data, none⟩] =
      { parent := pyStrip ("A".data), name := pyStrip ("B".data), object := ([] : Str) } ::
        loadRows [] :=
  ⟨row_rejection_policy.1 ⟨some "A".data, none, some "v".data⟩ []
      (Or.inr (Or.inr (Or.inl rfl))),
   row_rejection_policy.2.1 ⟨some "A".data, some "B".data, none⟩ [] rfl rfl rfl⟩

/-- C6: a loaded entry whose constructed icon path does not exist on the
backing store gets no button at all (it is absent from the rendered
palette), while an entry whose icon path exists gets exactly one button per
occurrence among the loaded entries. -/
theorem iconless_entries_omitted (l : List Component) (pathEx : Str → Bool) (c : Component) :
    (pathEx (getIconPath c.parent c.name) = false → c ∉ populateIcons l pathEx) ∧
    (pathEx (getIconPath c.parent c.name) = true →
      (populateIcons l pathEx).count c = l.count c) := by
  constructor
  · intro hex hc
    have hc' : c ∈ l.filter (fun x => pathEx (getIconPath x.parent x.name)) :=
      (populateIcons_perm l pathEx).mem_iff.mp hc
    have hpc := List.of_mem_filter hc'
    rw [hex] at hpc
    exact absurd hpc (by decide)
  · intro hex
    rw [(populateIcons_perm l pathEx).count_eq]
    exact List.count_filter hex

/-- C6, witness: with no icon on disk the single loaded entry gets no
button; with its icon present it gets exactly one. -/
theorem iconless_entries_omitted_witness :
    ((⟨"A".data, "X".data, "v".data⟩ : Component) ∉
      populateIcons [⟨"A".data, "X".data, "v".data⟩] (fun _ => false)) ∧
    (populateIcons [⟨"A".data, "X".data, "v".data⟩] (fun _ => true)).count
        ⟨"A".data, "X".data, "v".data⟩ =
      List.count (⟨"A".data, "X".data, "v".data⟩ : Component)
        [⟨"A".data, "X".data, "v".data⟩] :=
  ⟨(iconless_entries_omitted [⟨"A".data, "X".data, "v".data⟩] (fun _ => false)
      ⟨"A".data, "X".data, "v".data⟩).1 rfl,
   (iconless_entries_omitted [⟨"A".data, "X".data, "v".data⟩] (fun _ => true)
      ⟨"A".data, "X".data, "v".data⟩).2 rfl⟩

/-- C7: with the left button held and a recorded press position, a move
whose displacement from the press position has manhattan length below the
10-unit threshold produces no drag-started event, while a move at or above
the threshold produces exactly one drag-started event whose exported string
is the entry's payload. -/
theorem drag_threshold_policy (st : ButtonState) (payload : Str) (pos start : QPoint)
    (h : st.dragStartPosition = some start) :
    (manhattanLength ⟨pos.x - start.x, pos.y - start.y⟩ < 10 →
      mouseMoveEvent st payload true pos = none) ∧
    (10 ≤ manhattanLength ⟨pos.x - start.x, pos.y - start.y⟩ →
      mouseMoveEvent st payload true pos = some payload) := by
  constructor
  · intro hd
    unfold mouseMoveEvent
    rw [h]
    simp [hd]
  · intro hd
    unfold mouseMoveEvent
    rw [h]
    simp [Nat.not_lt.mpr hd]

/-- C7, witness: after a press at the origin, a 3-unit move produces no
drag-started event and a 20-unit move produces one carrying the payload. -/
theorem drag_threshold_policy_witness :
    mouseMoveEvent ⟨some ⟨0, 0⟩⟩ "w".data true ⟨3, 0⟩ = none ∧
    mouseMoveEvent ⟨some ⟨0, 0⟩⟩ "w".data true ⟨20, 0⟩ = some "w".data :=
  ⟨(drag_threshold_policy ⟨some ⟨0, 0⟩⟩ "w".data ⟨3, 0⟩ ⟨0, 0⟩ rfl).1 (by decide),
   (drag_threshold_policy ⟨some ⟨0, 0⟩⟩ "w".data ⟨20, 0⟩ ⟨0, 0⟩ rfl).2 (by decide)⟩

/-- C8: a record source that does not exist or cannot be opened makes the
loader complete with an empty component list; no failure is surfaced (the
loader is a total function into lists). -/
theorem unavailable_source_yields_empty (s : Source)
    (h : s = Source.absent ∨ s = Source.unreadable) : loadComponents s = [] := by
  rcases h with rfl | rfl <;> rfl

/-- C8, witness: the absent source loads nothing. -/
theorem unavailable_source_yields_empty_witness : loadComponents Source.absent = [] :=
  unavailable_source_yields_empty Source.absent (Or.inl rfl)

/-- C9: every accepted row is stored with category, name and payload
whitespace-stripped, and the empty-or-missing check precedes the stripping:
a row whose name field is the single space " " is accepted (its raw name is
non-empty) and stored as an entry whose name is the empty string. -/
theorem fields_stripped_after_presence_check :
    (∀ (r : RawRow) (rest : List RawRow), (truthy r.parent && truthy r.name) = true →
      loadRows (r :: rest) =
        { parent := pyStrip (r.parent.getD []), name := pyStrip (r.name.getD []),
          object := objectField r.object } :: loadRows rest) ∧
    (∀ (p o : Str) (rest : List RawRow), p.isEmpty = false →
      loadRows (⟨some p, some " ".data, some o⟩ :: rest) =
        { parent := pyStrip p, name := ([] : Str), object := pyStrip o } ::
          loadRows rest) := by
  constructor
  · intro r rest h
    rw [loadRows_cons_of_accepted r rest h]
    rfl
  · intro p o rest hp
    have hacc : (truthy (some p) && truthy (some " ".data)) = true := by
      simp [truthy, hp]
    rw [loadRows_cons_of_accepted _ rest hacc]
    unfold mkComponent
    rw [objectField_some]
    have hname : pyStrip " ".data = ([] : Str) := by decide
    simp [hname]

/-- C9, witness: the row with parent " A ", name " " and payload " v " is
accepted and stored as the entry (A, empty name, v). -/
theorem fields_stripped_after_presence_check_witness :
    loadRows [⟨some " A ".data, some " ".data, some " v ".data⟩] =
      { parent := pyStrip (" A ".data), name := ([] : Str),
        object := pyStrip (" v ".data) } :: loadRows [] :=
  fields_stripped_after_presence_check.2 " A ".data " v ".data [] rfl

/-- C10: no drag-started event without a preceding left-button press: a
move without the left button held exports nothing, a move with no recorded
press position exports nothing, and over any event sequence containing no
left-button press a freshly constructed button emits no drag-started event
at all. -/
theorem no_drag_without_left_press :
    (∀ (st : ButtonState) (payload : Str) (pos : QPoint),
      mouseMoveEvent st payload false pos = none) ∧
    (∀ (payload : Str) (leftHeld : Bool) (pos : QPoint),
      mouseMoveEvent ⟨none⟩ payload leftHeld pos = none) ∧
    (∀ (payload : Str) (events : List PointerEvent),
      (∀ e ∈ events, isLeftPress e = false) →
        runEmits payload initState events = []) := by
  refine ⟨fun st payload pos => rfl, ?_, ?_⟩
  · intro payload leftHeld pos
    cases leftHeld <;> rfl
  · intro payload events h
    exact runEmits_no_left_press payload events h

/-- C10, witness: a sequence of moves and a right-button press emits no
drag-started event. -/
theorem no_drag_without_left_press_witness :
    runEmits "w".data initState
      [PointerEvent.move true ⟨50, 50⟩, PointerEvent.press false ⟨0, 0⟩,
        PointerEvent.move true ⟨100, 100⟩] = [] :=
  no_drag_without_left_press.2.2 "w".data
    [PointerEvent.move true ⟨50, 50⟩, PointerEvent.press false ⟨0, 0⟩,
      PointerEvent.move true ⟨100, 100⟩] (by decide)

end CompLib
